import Mathlib

/-!
Verification of the `GroupingMap` grouping-and-folding adapter.

Shallow embedding of `src/src/grouping_map.rs`.  The source drives a Rust
iterator of `(key, value)` pairs to exhaustion; we model the iterator as a
`List (K × V)` consumed in order by `List.foldl`.  The destination
`HashMap<K, R>` is modelled extensionally as a function `K → Option R`
(`none` = key absent); `HashMap::remove` and `HashMap::insert` become the
pointwise updates below.  This model is faithful to the `HashMap` up to
iteration order of the result, which no property here depends on.
-/

namespace GroupingMap

variable {K V R C : Type}

/-- One step of the loop body of `GroupingMap::aggregate`
(`src/src/grouping_map.rs` lines 75-80): remove the accumulator stored for
`kv.1` (the removed value is `acc`), call `operation acc key val`, and insert
the result when it is `some`. -/
def aggregateStep [DecidableEq K] (operation : Option R → K → V → Option R)
    (destination_map : K → Option R) (kv : K × V) : K → Option R :=
  let acc := destination_map kv.1
  let removed : K → Option R := fun k => if k = kv.1 then none else destination_map k
  match operation acc kv.1 kv.2 with
  | some op_res => fun k => if k = kv.1 then some op_res else removed k
  | none => removed

/-- `GroupingMap::aggregate`: fold the loop body over the source sequence,
starting from the empty map. -/
def aggregate [DecidableEq K] (operation : Option R → K → V → Option R)
    (iter : List (K × V)) : K → Option R :=
  iter.foldl (aggregateStep operation) (fun _ => none)

/-- `GroupingMap::fold`: `aggregate` with the accumulator defaulted to a
clone of `init` and the callback result always kept. -/
def fold [DecidableEq K] (init : R) (operation : R → K → V → R)
    (iter : List (K × V)) : K → Option R :=
  aggregate (fun acc key val => some (operation (acc.getD init) key val)) iter

/-- `GroupingMap::fold_first`: `aggregate` where a missing accumulator is
seeded with the current value itself. -/
def fold_first [DecidableEq K] (operation : V → K → V → V)
    (iter : List (K × V)) : K → Option V :=
  aggregate (fun acc key val =>
    some (match acc with
      | some acc => operation acc key val
      | none => val)) iter

/-- `GroupingMap::collect`: the container type `C` is abstracted by its
`Default` value `dflt` and its single-element `Extend` step `ins`
(`acc.extend(Some(v))` inserts exactly the one element `v`). -/
def collect [DecidableEq K] (dflt : C) (ins : C → V → C)
    (iter : List (K × V)) : K → Option C :=
  aggregate (fun acc _ v => some (ins (acc.getD dflt) v)) iter

/-- `GroupingMap::count`: `fold` with seed `0` and an increment-by-one step. -/
def count [DecidableEq K] (iter : List (K × V)) : K → Option Nat :=
  fold 0 (fun acc _ _ => acc + 1) iter

/-- The values of the group of key `k`, in encounter order. -/
def groupValues [DecidableEq K] (k : K) (l : List (K × V)) : List V :=
  (l.filter fun kv => kv.1 = k).map Prod.snd

section Lemmas

variable [DecidableEq K]

theorem aggregate_nil (operation : Option R → K → V → Option R) (k : K) :
    aggregate operation [] k = none := rfl

theorem aggregateStep_apply (operation : Option R → K → V → Option R)
    (m : K → Option R) (k : K) (v : V) (k' : K) :
    aggregateStep operation m (k, v) k' =
      if k' = k then operation (m k) k v else m k' := by
  unfold aggregateStep
  cases h : operation (m k) k v with
  | none => rfl
  | some r =>
    show (if k' = k then some r else _) = _
    split_ifs with h1 <;> simp [h1]

theorem aggregate_concat (operation : Option R → K → V → Option R)
    (l : List (K × V)) (k : K) (v : V) (k' : K) :
    aggregate operation (l ++ [(k, v)]) k' =
      if k' = k then operation (aggregate operation l k) k v
      else aggregate operation l k' := by
  show List.foldl (aggregateStep operation) (fun _ => none) (l ++ [(k, v)]) k' = _
  rw [List.foldl_append]
  exact aggregateStep_apply operation (aggregate operation l) k v k'

theorem aggregate_eq_none_of_not_mem (operation : Option R → K → V → Option R)
    {l : List (K × V)} {k : K} (h : k ∉ l.map Prod.fst) :
    aggregate operation l k = none := by
  induction l using List.reverseRecOn with
  | nil => rfl
  | append_singleton l kv ih =>
    obtain ⟨k₀, v₀⟩ := kv
    rw [aggregate_concat]
    simp only [List.map_append, List.mem_append] at h
    push_neg at h
    have hk : k ≠ k₀ := by
      intro hkk
      exact h.2 (by simp [hkk])
    rw [if_neg hk]
    exact ih h.1

theorem aggregate_isSome_iff (operation : Option R → K → V → Option R)
    (hop : ∀ a k v, (operation a k v).isSome = true)
    (l : List (K × V)) (k : K) :
    (aggregate operation l k).isSome = true ↔ k ∈ l.map Prod.fst := by
  induction l using List.reverseRecOn with
  | nil => simp [aggregate_nil]
  | append_singleton l kv ih =>
    obtain ⟨k₀, v₀⟩ := kv
    rw [aggregate_concat]
    by_cases hk : k = k₀
    · subst hk
      simp [hop]
    · rw [if_neg hk]
      simp [ih, hk]

theorem groupValues_nil (k : K) : groupValues k ([] : List (K × V)) = [] := rfl

theorem groupValues_concat (k : K) (l : List (K × V)) (k₀ : K) (v₀ : V) :
    groupValues k (l ++ [(k₀, v₀)]) =
      groupValues k l ++ (if k₀ = k then [v₀] else []) := by
  unfold groupValues
  rw [List.filter_append]
  by_cases h : k₀ = k <;> simp [h]

theorem groupValues_eq_nil_of_not_mem {k : K} {l : List (K × V)}
    (h : k ∉ l.map Prod.fst) : groupValues k l = [] := by
  unfold groupValues
  rw [List.filter_eq_nil_iff.mpr, List.map_nil]
  intro kv hkv
  simp only [decide_eq_true_eq]
  intro hfst
  exact h (by simpa [hfst] using List.mem_map_of_mem Prod.fst hkv)

theorem fold_char (init : R) (op : R → K → V → R) (l : List (K × V)) (k : K) :
    fold init op l k =
      if k ∈ l.map Prod.fst then
        some ((groupValues k l).foldl (fun acc v => op acc k v) init)
      else none := by
  induction l using List.reverseRecOn with
  | nil => simp [fold, aggregate_nil]
  | append_singleton l kv ih =>
    obtain ⟨k₀, v₀⟩ := kv
    show aggregate _ (l ++ [(k₀, v₀)]) k = _
    rw [aggregate_concat, groupValues_concat]
    by_cases hk : k = k₀
    · subst hk
      have hm : k ∈ (l ++ [(k, v₀)]).map Prod.fst := by simp
      rw [if_pos rfl, if_pos hm, if_pos rfl, List.foldl_append]
      rw [show aggregate (fun acc key val => some (op (acc.getD init) key val)) l k
            = fold init op l k from rfl, ih]
      by_cases hmem : k ∈ l.map Prod.fst
      · rw [if_pos hmem]; rfl
      · rw [if_neg hmem, groupValues_eq_nil_of_not_mem hmem]; rfl
    · have hm : (k ∈ (l ++ [(k₀, v₀)]).map Prod.fst) ↔ k ∈ l.map Prod.fst := by
        simp [hk]
      rw [if_neg hk, if_neg (fun h : k₀ = k => hk h.symm), List.append_nil]
      rw [show aggregate (fun acc key val => some (op (acc.getD init) key val)) l k
            = fold init op l k from rfl, ih]
      by_cases hmem : k ∈ l.map Prod.fst
      · rw [if_pos hmem, if_pos (hm.mpr hmem)]
      · rw [if_neg hmem, if_neg (fun h => hmem (hm.mp h))]

theorem fold_first_char (op : V → K → V → V) (l : List (K × V)) (k : K) :
    fold_first op l k =
      match groupValues k l with
      | [] => none
      | v :: vs => some (vs.foldl (fun a w => op a k w) v) := by
  induction l using List.reverseRecOn with
  | nil => rfl
  | append_singleton l kv ih =>
    obtain ⟨k₀, v₀⟩ := kv
    show aggregate _ (l ++ [(k₀, v₀)]) k = _
    rw [aggregate_concat, groupValues_concat]
    by_cases hk : k = k₀
    · subst hk
      rw [if_pos rfl, if_pos rfl]
      rw [show aggregate (fun acc key val =>
            some (match acc with | some acc => op acc key val | none => val)) l k
            = fold_first op l k from rfl, ih]
      cases hg : groupValues k l with
      | nil => rfl
      | cons v vs => simp [List.foldl_append]
    · rw [if_neg hk, if_neg (fun h : k₀ = k => hk h.symm), List.append_nil]
      rw [show aggregate (fun acc key val =>
            some (match acc with | some acc => op acc key val | none => val)) l k
            = fold_first op l k from rfl, ih]

theorem foldl_const_add_one (xs : List V) (n : Nat) :
    xs.foldl (fun acc _ => acc + 1) n = n + xs.length := by
  induction xs generalizing n with
  | nil => rfl
  | cons x xs ih => simp only [List.foldl_cons, ih, List.length_cons]; omega

end Lemmas

section Claims

variable [DecidableEq K]

/-- C1: `aggregate` processes the input sequence in encounter order, starting
from the empty mapping; at each element `(k, v)` the accumulator currently
stored for `k` is removed (absent when none), `operation` is invoked on the
removed accumulator, the key and the value, and afterwards `k` maps to
exactly the callback's result — stored when present, absent when the callback
returns `none` — while every other key is untouched. -/
theorem claim1_aggregate_step_semantics (operation : Option R → K → V → Option R)
    (l : List (K × V)) (k : K) (v : V) (k' : K) :
    aggregate operation ([] : List (K × V)) k' = none ∧
    aggregate operation (l ++ [(k, v)]) k' =
      (if k' = k then operation (aggregate operation l k) k v
       else aggregate operation l k') :=
  ⟨aggregate_nil operation k', aggregate_concat operation l k v k'⟩

/-- C2: for each of `fold`, `fold_first`, `collect` and `count`, a key is in
the returned mapping exactly when it occurs among the keys of the input
sequence. -/
theorem claim2_key_completeness (l : List (K × V)) (k : K)
    (init : R) (f : R → K → V → R) (g : V → K → V → V)
    (dflt : C) (ins : C → V → C) :
    ((fold init f l k).isSome = true ↔ k ∈ l.map Prod.fst) ∧
    ((fold_first g l k).isSome = true ↔ k ∈ l.map Prod.fst) ∧
    ((collect dflt ins l k).isSome = true ↔ k ∈ l.map Prod.fst) ∧
    ((count l k).isSome = true ↔ k ∈ l.map Prod.fst) := by
  refine ⟨?_, ?_, ?_, ?_⟩
  · unfold fold
    apply aggregate_isSome_iff
    intro _ _ _
    rfl
  · unfold fold_first
    apply aggregate_isSome_iff
    intro _ _ _
    rfl
  · unfold collect
    apply aggregate_isSome_iff
    intro _ _ _
    rfl
  · unfold count fold
    apply aggregate_isSome_iff
    intro _ _ _
    rfl

/-- C3: the mapping returned by `fold` has an entry for every distinct input
key, equal to the left-fold of the group's values in encounter order seeded
with `init`; every other key is absent. -/
theorem claim3_fold_is_group_foldl (init : R) (op : R → K → V → R)
    (l : List (K × V)) (k : K) :
    fold init op l k =
      if k ∈ l.map Prod.fst then
        some ((groupValues k l).foldl (fun acc v => op acc k v) init)
      else none :=
  fold_char init op l k

/-- C4: `fold_first` folds each group like `fold`, except that the
accumulator is seeded with the first value encountered for the key and the
remaining values are folded in encounter order; in particular a key whose
group is a singleton `[v]` maps to `v` unchanged. -/
theorem claim4_fold_first_seeded_by_head (op : V → K → V → V)
    (l : List (K × V)) (k : K) :
    (fold_first op l k =
      match groupValues k l with
      | [] => none
      | v :: vs => some (vs.foldl (fun a w => op a k w) v)) ∧
    (∀ v : V, groupValues k l = [v] → fold_first op l k = some v) := by
  refine ⟨fold_first_char op l k, ?_⟩
  intro v hv
  rw [fold_first_char op l k, hv]
  rfl

theorem claim4_fold_first_seeded_by_head_witness :
    fold_first (fun a _ w => a + w) [((0 : Nat), (5 : Nat))] 0 = some 5 :=
  (claim4_fold_first_seeded_by_head (fun a _ w => a + w) [((0 : Nat), (5 : Nat))] 0).2 5
    (by decide)

end Claims

/-- Mapping described by the spec for `count` (§4.5): each distinct input key
maps to the number of input elements bearing that key; a key that never
appears in the input is absent rather than present with value `0`. -/
def countSpec [DecidableEq K] (l : List (K × V)) (k : K) : Option Nat :=
  if k ∈ l.map Prod.fst then some (l.countP fun kv => kv.1 = k) else none

section MoreClaims

variable [DecidableEq K]

/-- C5: `count` is exactly `fold` with seed `0` and an increment-by-one step,
and the resulting mapping sends each distinct input key to the number of
input elements bearing that key, leaving never-appearing keys absent. -/
theorem claim5_count_refines_spec (l : List (K × V)) (k : K) :
    count l = fold 0 (fun acc _ _ => acc + 1) l ∧
    count l k = countSpec l k := by
  refine ⟨rfl, ?_⟩
  rw [show count l = fold 0 (fun acc _ _ => acc + 1) l from rfl, fold_char]
  unfold countSpec
  by_cases hmem : k ∈ l.map Prod.fst
  · rw [if_pos hmem, if_pos hmem, foldl_const_add_one, Nat.zero_add]
    rw [show groupValues k l = (l.filter fun kv => kv.1 = k).map Prod.snd from rfl,
      List.length_map, ← List.countP_eq_length_filter]
  · rw [if_neg hmem, if_neg hmem]

theorem claim5_count_refines_spec_witness :
    count [((0 : Nat), (7 : Nat)), (1, 8), (0, 9)] 0 = countSpec [((0 : Nat), (7 : Nat)), (1, 8), (0, 9)] 0 :=
  (claim5_count_refines_spec [((0 : Nat), (7 : Nat)), (1, 8), (0, 9)] 0).2

/-- C6: for any container type — abstracted by its empty value `dflt` and its
single-element insertion `ins` — `collect` maps each distinct input key to
the container obtained by inserting that key's values one at a time in
encounter order, and leaves every other key absent. -/
theorem claim6_collect_inserts_in_order (dflt : C) (ins : C → V → C)
    (l : List (K × V)) (k : K) :
    collect dflt ins l k =
      if k ∈ l.map Prod.fst then
        some ((groupValues k l).foldl ins dflt)
      else none := by
  rw [show collect dflt ins l = fold dflt (fun a (_ : K) v => ins a v) l from rfl, fold_char]

/-- C7: a key is present in the mapping built by `aggregate` exactly when the
most recent aggregation step for that key kept its result: when the last
element with key `k` is `(k, v)` (no element of the suffix `l₂` has key `k`),
the final mapping at `k` equals the callback's result at that step, so `k`
is present iff that result was `some`; and a key with no elements at all is
absent. -/
theorem claim7_presence_matches_last_step (operation : Option R → K → V → Option R)
    (l₁ l₂ : List (K × V)) (k : K) (v : V) :
    (k ∉ l₂.map Prod.fst →
      aggregate operation (l₁ ++ (k, v) :: l₂) k =
        operation (aggregate operation l₁ k) k v) ∧
    (∀ l : List (K × V), k ∉ l.map Prod.fst → aggregate operation l k = none) := by
  constructor
  · induction l₂ using List.reverseRecOn with
    | nil =>
      intro _
      rw [show l₁ ++ (k, v) :: [] = l₁ ++ [(k, v)] from rfl, aggregate_concat, if_pos rfl]
    | append_singleton l₂ kv ih =>
      obtain ⟨k₀, v₀⟩ := kv
      intro h
      simp only [List.map_append, List.mem_append] at h
      push_neg at h
      have hk : k ≠ k₀ := by
        intro hkk
        exact h.2 (by simp [hkk])
      rw [show l₁ ++ (k, v) :: (l₂ ++ [(k₀, v₀)]) = (l₁ ++ (k, v) :: l₂) ++ [(k₀, v₀)]
            from by simp, aggregate_concat, if_neg hk]
      exact ih h.1
  · intro l h
    exact aggregate_eq_none_of_not_mem operation h

theorem claim7_presence_matches_last_step_witness :
    aggregate (fun a (_ : Nat) (w : Nat) => some (a.getD 0 + w))
        ([((0 : Nat), (1 : Nat))] ++ (0, 2) :: [(1, 3)]) 0 =
      (fun a (_ : Nat) (w : Nat) => some (a.getD 0 + w))
        (aggregate (fun a (_ : Nat) (w : Nat) => some (a.getD 0 + w)) [(0, 1)] 0) 0 2 ∧
    aggregate (fun a (_ : Nat) (w : Nat) => some (a.getD 0 + w)) [((1 : Nat), (1 : Nat))] 0 = none :=
  ⟨(claim7_presence_matches_last_step (fun a (_ : Nat) (w : Nat) => some (a.getD 0 + w))
      [(0, 1)] [(1, 3)] 0 2).1 (by decide),
   (claim7_presence_matches_last_step (fun a (_ : Nat) (w : Nat) => some (a.getD 0 + w))
      [(0, 1)] [(1, 3)] 0 2).2 [(1, 1)] (by decide)⟩

end MoreClaims

/-- The callback of Scenario 1 of the spec: reset (return `none`) when the
value is `0` or `10`, otherwise add the value to the running sum, starting
from `0` when no accumulator exists. -/
def scenario1Op (acc : Option Nat) (_ : Nat) (val : Nat) : Option Nat :=
  if val = 0 ∨ val = 10 then none else some (acc.getD 0 + val)

/-- The input of Scenario 1 of the spec: keys are `value % 4` of
`[2, 8, 5, 7, 9, 0, 4, 10]`. -/
def scenario1Input : List (Nat × Nat) :=
  [(0, 2), (0, 8), (1, 5), (3, 7), (1, 9), (0, 0), (0, 4), (2, 10)]

/-- C8: on the Scenario 1 input, `aggregate` with the reset-on-0-or-10
summing callback produces exactly the mapping `{0 ↦ 4, 1 ↦ 14, 3 ↦ 7}`:
key `2` is absent, and so is every key other than `0`, `1`, `3`. -/
theorem claim8_scenario1 :
    aggregate scenario1Op scenario1Input 0 = some 4 ∧
    aggregate scenario1Op scenario1Input 1 = some 14 ∧
    aggregate scenario1Op scenario1Input 3 = some 7 ∧
    aggregate scenario1Op scenario1Input 2 = none ∧
    ∀ k : Nat, k ∉ ([0, 1, 2, 3] : List Nat) →
      aggregate scenario1Op scenario1Input k = none := by
  refine ⟨by decide, by decide, by decide, by decide, ?_⟩
  intro k hk
  apply aggregate_eq_none_of_not_mem
  intro hmem
  apply hk
  rw [show scenario1Input.map Prod.fst = [0, 0, 1, 3, 1, 0, 0, 2] from rfl] at hmem
  simp only [List.mem_cons, List.not_mem_nil, or_false] at hmem
  simp only [List.mem_cons, List.not_mem_nil, or_false]
  tauto

theorem claim8_scenario1_witness :
    (5 : Nat) ∉ ([0, 1, 2, 3] : List Nat) ∧
    aggregate scenario1Op scenario1Input 5 = none :=
  ⟨by decide, claim8_scenario1.2.2.2.2 5 (by decide)⟩

section FinalClaims

variable [DecidableEq K]

/-- C9: every key present in the mapping returned by `aggregate` occurs as
the key of some input element, and an empty input yields an empty mapping
for every terminal operation (`aggregate`, `fold`, `fold_first`, `collect`,
`count`). -/
theorem claim9_output_keys_subset_input (operation : Option R → K → V → Option R)
    (l : List (K × V)) (k : K) (init : R) (f : R → K → V → R)
    (g : V → K → V → V) (dflt : C) (ins : C → V → C) :
    ((aggregate operation l k).isSome = true → k ∈ l.map Prod.fst) ∧
    (aggregate operation ([] : List (K × V)) k = none ∧
     fold init f ([] : List (K × V)) k = none ∧
     fold_first g ([] : List (K × V)) k = none ∧
     collect dflt ins ([] : List (K × V)) k = none ∧
     count ([] : List (K × V)) k = none) := by
  refine ⟨?_, rfl, rfl, rfl, rfl, rfl⟩
  intro h
  by_contra hmem
  rw [aggregate_eq_none_of_not_mem operation hmem] at h
  exact Bool.noConfusion h

theorem claim9_output_keys_subset_input_witness :
    (0 : Nat) ∈ ([((0 : Nat), (1 : Nat))].map Prod.fst) :=
  (claim9_output_keys_subset_input (fun _ (_ : Nat) (w : Nat) => some w)
    [((0 : Nat), (1 : Nat))] 0 (0 : Nat) (fun a _ _ => a) (fun a _ _ => a)
    (0 : Nat) (fun a _ => a)).1 (by decide)

/-- C10: the values of the mapping returned by `count`, summed over all of
its keys (by C2 these are exactly the distinct input keys), add up to the
number of elements of the input sequence. -/
theorem claim10_count_values_sum_to_length (l : List (K × V)) :
    (((l.map Prod.fst).dedup).map (fun k => (count l k).getD 0)).sum = l.length := by
  have h1 : ∀ k ∈ (l.map Prod.fst).dedup,
      (count l k).getD 0 = (l.map Prod.fst).count k := by
    intro k hk
    have hmem : k ∈ l.map Prod.fst := List.mem_dedup.mp hk
    rw [show count l k = fold 0 (fun acc _ _ => acc + 1) l k from rfl, fold_char,
      if_pos hmem]
    rw [show (some ((groupValues k l).foldl (fun acc _ => acc + 1) 0)).getD 0
          = (groupValues k l).foldl (fun acc _ => acc + 1) 0 from rfl]
    rw [foldl_const_add_one, Nat.zero_add]
    rw [show groupValues k l = (l.filter fun kv => kv.1 = k).map Prod.snd from rfl,
      List.length_map, ← List.countP_eq_length_filter]
    rw [List.count_eq_countP, List.countP_map]
    apply List.countP_congr
    intro kv _
    simp [Function.comp]
  calc (((l.map Prod.fst).dedup).map (fun k => (count l k).getD 0)).sum
      = (((l.map Prod.fst).dedup).map (fun k => (l.map Prod.fst).count k)).sum := by
        rw [List.map_congr_left h1]
    _ = (l.map Prod.fst).length := List.sum_map_count_dedup_eq_length _
    _ = l.length := List.length_map _ _

end FinalClaims

end GroupingMap
